import Mathlib

/-!
Verification of the cache_strategies repository: an LRU (recency) cache
(pkg/cache/lru/lru_cache.go) and an LFU (frequency) cache (lfu_cache.go).

Both Go caches pair a hash index with doubly linked lists; the index always
holds exactly the elements of the lists, keyed by the entry key, so the
embedding represents each cache by its lists alone and realises every index
lookup as a search of the lists.  Go run-time panics (nil pointer
dereference, the constructor's explicit panic) are embedded as
`Except.error`.
-/

/-- Values of Go's empty-interface type as the caches use them: keys and
values are arbitrary comparable values; the LRU `Get` miss returns the
string zero value and the LFU `Get` miss returns nil. -/
inductive GoVal where
  | nil
  | str (s : String)
  | int (n : Int)
  | bool (b : Bool)
deriving DecidableEq

/-! ## The LRU cache (lru_cache.go)

`type LRU struct` holds `capacity int`, `items map[interface] *list.Element`
and `queue *list.List` of `Item` records.  The queue is most recently
touched first; `items` indexes exactly the queue's elements by key, so the
state is the capacity and the queue as a front-first list of (key, value)
pairs. -/

structure LRU where
  capacity : Nat
  queue : List (GoVal × GoVal)
deriving DecidableEq

/-- The map lookup `L.items[key]`: the unique queue element carrying `key`
(the map holds one element per key, the first and only match in the queue). -/
def LRU.findEntry (q : List (GoVal × GoVal)) (k : GoVal) : Option (GoVal × GoVal) :=
  match q with
  | [] => none
  | e :: es => if e.1 = k then some e else LRU.findEntry es k

/-- `container/list`'s removal of the element that `L.items[key]` points at:
drop the first (and, with unique keys, only) entry whose key is `k`. -/
def LRU.eraseKey (q : List (GoVal × GoVal)) (k : GoVal) : List (GoVal × GoVal) :=
  match q with
  | [] => []
  | e :: es => if e.1 = k then es else e :: LRU.eraseKey es k

/-- `func (L *LRU) Add(key, value interface) bool` (lru_cache.go lines
19-42): existing key is moved to the front and `false` returned, value kept;
capacity 0 stores nothing and returns `true`; at capacity the back element
is removed (`removeLastElement`, lines 64-69) before the push to the front. -/
def LRU.Add (L : LRU) (key value : GoVal) : LRU × Bool :=
  match LRU.findEntry L.queue key with
  | some e => ({ L with queue := e :: LRU.eraseKey L.queue key }, false)
  | none =>
    if L.capacity = 0 then (L, true)
    else
      let L1 := if L.queue.length = L.capacity then
          { L with queue := L.queue.dropLast } else L
      ({ L1 with queue := (key, value) :: L1.queue }, true)

/-- `func (L *LRU) Get(key interface) (value interface, ok bool)` (lines
44-51): a miss returns the empty string and `false`; a hit moves the element
to the front and returns its value. -/
def LRU.Get (L : LRU) (key : GoVal) : GoVal × Bool × LRU :=
  match LRU.findEntry L.queue key with
  | none => (GoVal.str "", false, L)
  | some e => (e.2, true, { L with queue := e :: LRU.eraseKey L.queue key })

/-- `func (L *LRU) Remove(key interface) (ok bool)` (lines 53-62). -/
def LRU.Remove (L : LRU) (key : GoVal) : LRU × Bool :=
  match LRU.findEntry L.queue key with
  | some _ => ({ L with queue := LRU.eraseKey L.queue key }, true)
  | none => (L, false)

/-- The number of entries held: `L.queue.Len()`, which always equals
`len(L.items)`. -/
def LRU.size (L : LRU) : Nat := L.queue.length

/-- `func NewLRUCache(n int) cache.Cache` (lines 71-80): `panic("capacity
must be positive")` for every `n <= 0`, capacity 0 included. -/
def NewLRUCache (n : Int) : Except String LRU :=
  if n ≤ 0 then Except.error "capacity must be positive"
  else Except.ok { capacity := n.toNat, queue := [] }

/-- One client operation against the LRU cache. -/
inductive LRUOp where
  | put (k v : GoVal)
  | get (k : GoVal)
  | rem (k : GoVal)

/-- Running a sequence of operations against the LRU cache. -/
def LRU.run (L : LRU) : List LRUOp → LRU
  | [] => L
  | op :: ops =>
    let L' := match op with
      | LRUOp.put k v => (L.Add k v).1
      | LRUOp.get k => (L.Get k).2.2
      | LRUOp.rem k => (L.Remove k).1
    LRU.run L' ops

/-! ## The LFU cache (lfu_cache.go)

`LFUCache` holds `capacity`, `minFreq`, `items map[interface]*list.Element`,
`freqLists map[int]*list.Element` and `freqNodes *list.List` of
`FrequencyNode` records, each a frequency and a `*list.List` of `CacheItem`
records.  `items` indexes exactly the elements of the per-frequency lists by
key and `freqLists` indexes exactly the nodes of `freqNodes` by frequency,
so the state is the capacity, `minFreq` and `freqNodes` as a list of
(frequency, bucket) pairs, buckets front-first. -/

structure CacheItem where
  key : GoVal
  value : GoVal
  frequency : Nat
deriving DecidableEq

structure LFUCache where
  capacity : Nat
  minFreq : Nat
  freqNodes : List (Nat × List CacheItem)
deriving DecidableEq

/-- First item with key `k` in a bucket (the element `items[k]` points at). -/
def findInBucket (b : List CacheItem) (k : GoVal) : Option CacheItem :=
  match b with
  | [] => none
  | it :: its => if it.key = k then some it else findInBucket its k

/-- The map lookup `c.items[key]`: the unique stored item carrying `key`,
found by scanning the frequency buckets. -/
def lookupItem (ns : List (Nat × List CacheItem)) (k : GoVal) : Option CacheItem :=
  match ns with
  | [] => none
  | (_, b) :: rest =>
    match findInBucket b k with
    | some it => some it
    | none => lookupItem rest k

/-- `container/list` removal of the element `items[k]` points at from a
bucket: drop the first (with unique keys, only) item whose key is `k`. -/
def eraseItemKey (b : List CacheItem) (k : GoVal) : List CacheItem :=
  match b with
  | [] => []
  | it :: its => if it.key = k then its else it :: eraseItemKey its k

/-- `func (c *LFUCache) removeFromFrequencyList(freq int, elem
*list.Element)` (lfu_cache.go): look up `freqLists[freq]` (the node with
that frequency); remove the element from its bucket; if the bucket is now
empty remove the node from `freqNodes` and delete the `freqLists` entry.
Absent frequency: no-op. -/
def removeFromFrequencyList (ns : List (Nat × List CacheItem)) (freq : Nat)
    (k : GoVal) : List (Nat × List CacheItem) :=
  match ns with
  | [] => []
  | (f, b) :: rest =>
    if f = freq then
      let b' := eraseItemKey b k
      if b'.length = 0 then rest else (f, b') :: rest
    else (f, b) :: removeFromFrequencyList rest freq k

/-- `func (c *LFUCache) addToFrequencyList(freq int, item *CacheItem)
*list.Element` together with the sorted insertion `insertFrequencyNode`: if
a node with `freq` exists (`freqLists[freq]`), push the item to the back of
its bucket; otherwise walk the ascending node list exactly as
`insertFrequencyNode` does (push to the front when the list is empty or
`freq` is below the first node, insert before the first larger node, append
at the end) and start the fresh node's bucket with the item. -/
def addToFrequencyList (ns : List (Nat × List CacheItem)) (freq : Nat)
    (it : CacheItem) : List (Nat × List CacheItem) :=
  match ns with
  | [] => [(freq, [it])]
  | (g, b) :: rest =>
    if freq = g then (g, b ++ [it]) :: rest
    else if freq < g then (freq, [it]) :: (g, b) :: rest
    else (g, b) :: addToFrequencyList rest freq it

/-- `func (c *LFUCache) getFrequencyList(freq int) *list.List`: the bucket
of the node `freqLists[freq]` points at, or `none` for Go's nil when the
frequency has no node. -/
def getFrequencyList (ns : List (Nat × List CacheItem)) (freq : Nat) :
    Option (List CacheItem) :=
  match ns with
  | [] => none
  | (f, b) :: rest => if f = freq then some b else getFrequencyList rest freq

/-- `func (c *LFUCache) incrementFrequency(elem *list.Element)`: remove the
item from the bucket of its old frequency, push it to the back of the bucket
of the old frequency plus one (setting its frequency field), then check
`oldFreq == c.minFreq && c.getFrequencyList(oldFreq).Len() == 0`.  When the
removal emptied and hence destroyed the old bucket, `getFrequencyList`
returns nil and calling `Len()` on it dereferences a nil pointer: that Go
panic is the `Except.error`.  Otherwise the surviving old bucket is
non-empty, so the `c.minFreq = newFreq` assignment never executes. -/
def LFUCache.incrementFrequency (c : LFUCache) (it : CacheItem) :
    Except String LFUCache :=
  let oldFreq := it.frequency
  let newFreq := oldFreq + 1
  let ns1 := removeFromFrequencyList c.freqNodes oldFreq it.key
  let ns2 := addToFrequencyList ns1 newFreq { it with frequency := newFreq }
  if oldFreq = c.minFreq then
    match getFrequencyList ns2 oldFreq with
    | none => Except.error "invalid memory address or nil pointer dereference"
    | some b =>
      if b.length = 0 then Except.ok { c with freqNodes := ns2, minFreq := newFreq }
      else Except.ok { c with freqNodes := ns2 }
  else Except.ok { c with freqNodes := ns2 }

/-- `func (c *LFUCache) Get(key interface) (interface, bool)`: a miss
returns nil and `false`; a hit increments the frequency (which can panic)
and returns the item's value. -/
def LFUCache.Get (c : LFUCache) (key : GoVal) :
    Except String (GoVal × Bool × LFUCache) :=
  match lookupItem c.freqNodes key with
  | some it =>
    match c.incrementFrequency it with
    | Except.ok c' => Except.ok (it.value, true, c')
    | Except.error e => Except.error e
  | none => Except.ok (GoVal.nil, false, c)

/-- Total number of items across a node list (`len(c.items)` over it). -/
def sizeNodes (ns : List (Nat × List CacheItem)) : Nat :=
  match ns with
  | [] => 0
  | (_, b) :: rest => b.length + sizeNodes rest

/-- `func (c *LFUCache) Size() int`, i.e. `len(c.items)`: the total number
of stored items. -/
def LFUCache.Size (c : LFUCache) : Nat := sizeNodes c.freqNodes

/-- The stored keys in bucket order (the domain of `c.items`). -/
def keysNodes (ns : List (Nat × List CacheItem)) : List GoVal :=
  match ns with
  | [] => []
  | (_, b) :: rest => b.map CacheItem.key ++ keysNodes rest

/-- `func (c *LFUCache) evict()`: nothing when `freqNodes` is empty;
otherwise take the front node, and when its bucket is non-empty remove the
bucket's front element (and the key from `items`), destroying the node if
the bucket is now empty.  `minFreq` is not touched. -/
def LFUCache.evict (c : LFUCache) : LFUCache :=
  match c.freqNodes with
  | [] => c
  | (f, b) :: rest =>
    match b with
    | [] => c
    | _ :: b' =>
      if b'.length = 0 then { c with freqNodes := rest }
      else { c with freqNodes := (f, b') :: rest }

/-- `func (c *LFUCache) Put(key, value interface)` (no results declared): a
no-op at capacity 0; an existing key has its value overwritten and its
frequency incremented (the Go code mutates the shared item record before
calling `incrementFrequency`, which moves exactly that record); a new key
first evicts when `len(c.items) >= c.capacity`, then is stored with
frequency 1 and `minFreq` is set to 1 unconditionally. -/
def LFUCache.Put (c : LFUCache) (key value : GoVal) : Except String LFUCache :=
  if c.capacity = 0 then Except.ok c
  else
    match lookupItem c.freqNodes key with
    | some it => c.incrementFrequency { it with value := value }
    | none =>
      let c1 := if c.Size ≥ c.capacity then c.evict else c
      let ns := addToFrequencyList c1.freqNodes 1
          { key := key, value := value, frequency := 1 }
      Except.ok { c1 with freqNodes := ns, minFreq := 1 }

/-- `func (c *LFUCache) Clear()`. -/
def LFUCache.Clear (c : LFUCache) : LFUCache :=
  { c with freqNodes := [], minFreq := 0 }

/-- `func NewLFUCache(capacity int) *LFUCache`: `panic("capacity must be
positive")` for `capacity <= 0`. -/
def NewLFUCache (n : Int) : Except String LFUCache :=
  if n ≤ 0 then Except.error "capacity must be positive"
  else Except.ok { capacity := n.toNat, minFreq := 0, freqNodes := [] }

/-- One client operation against the LFU cache (the source defines no
remove operation). -/
inductive LFUOp where
  | put (k v : GoVal)
  | get (k : GoVal)

/-- One step of a client run: the state after the operation (`Get`'s
returned value is discarded); a panic is an error. -/
def LFUCache.step (c : LFUCache) (op : LFUOp) : Except String LFUCache :=
  match op with
  | LFUOp.put k v => c.Put k v
  | LFUOp.get k =>
    match c.Get k with
    | Except.ok r => Except.ok r.2.2
    | Except.error e => Except.error e

/-- Running a sequence of operations against the LFU cache; a panic aborts
the run. -/
def LFUCache.run (c : LFUCache) : List LFUOp → Except String LFUCache
  | [] => Except.ok c
  | op :: ops =>
    match c.step op with
    | Except.ok c' => LFUCache.run c' ops
    | Except.error e => Except.error e

/-- The methods lfu_cache.go defines on `LFUCache` (with its constructor),
in order of appearance in the file.  The file defines no remove method. -/
def lfuMethodNames : List String :=
  ["NewLFUCache", "Get", "Put", "incrementFrequency", "addToFrequencyList",
   "insertFrequencyNode", "removeFromFrequencyList", "getFrequencyList",
   "evict", "Size", "Clear"]

/-- The result types of the Go signature of `LFUCache.Put`: `func (c
*LFUCache) Put(key, value interface)` declares no results. -/
def lfuPutResultTypes : List String := []

/-- The result types of the Go signature of `LRU.Add`: `func (L *LRU)
Add(key, value interface) bool`. -/
def lruAddResultTypes : List String := ["bool"]

/-! ## Lemmas about the LRU queue -/

theorem LRU.length_eraseKey_of_found (q : List (GoVal × GoVal)) (k : GoVal)
    (e : GoVal × GoVal) (h : LRU.findEntry q k = some e) :
    (LRU.eraseKey q k).length + 1 = q.length := by
  induction q with
  | nil => simp [LRU.findEntry] at h
  | cons a as ih =>
    by_cases hk : a.1 = k
    · simp [LRU.eraseKey, hk]
    · simp only [LRU.findEntry, hk, if_false] at h
      simp [LRU.eraseKey, hk, ← ih h]

theorem LRU.length_eraseKey_le (q : List (GoVal × GoVal)) (k : GoVal) :
    (LRU.eraseKey q k).length ≤ q.length := by
  induction q with
  | nil => simp [LRU.eraseKey]
  | cons a as ih =>
    by_cases hk : a.1 = k
    · simp [LRU.eraseKey, hk]
    · simp only [LRU.eraseKey, hk, if_false, List.length_cons]
      omega

theorem LRU.findEntry_eraseKey_ne (q : List (GoVal × GoVal)) (k k2 : GoVal)
    (hne : k2 ≠ k) :
    LRU.findEntry (LRU.eraseKey q k) k2 = LRU.findEntry q k2 := by
  induction q with
  | nil => simp [LRU.eraseKey]
  | cons a as ih =>
    by_cases hk : a.1 = k
    · have hak : ¬ a.1 = k2 := by rw [hk]; exact fun h => hne h.symm
      simp [LRU.eraseKey, LRU.findEntry, hk, hak, Ne.symm hne]
    · by_cases hk2 : a.1 = k2
      · simp [LRU.eraseKey, LRU.findEntry, hk, hk2, hne]
      · simp [LRU.eraseKey, LRU.findEntry, hk, hk2, ih]

theorem LRU.findEntry_eq_none (q : List (GoVal × GoVal)) (k : GoVal)
    (h : k ∉ q.map Prod.fst) : LRU.findEntry q k = none := by
  induction q with
  | nil => rfl
  | cons a as ih =>
    simp only [List.map_cons, List.mem_cons, not_or] at h
    simp only [LRU.findEntry]
    rw [if_neg (fun hh => h.1 hh.symm)]
    exact ih h.2

theorem LRU.findEntry_eraseKey_self (q : List (GoVal × GoVal)) (k : GoVal)
    (hnd : (q.map Prod.fst).Nodup) :
    LRU.findEntry (LRU.eraseKey q k) k = none := by
  induction q with
  | nil => simp [LRU.eraseKey, LRU.findEntry]
  | cons a as ih =>
    simp only [List.map_cons, List.nodup_cons] at hnd
    by_cases hk : a.1 = k
    · simp only [LRU.eraseKey, hk, if_true]
      exact LRU.findEntry_eq_none as k (by rw [← hk]; exact hnd.1)
    · simp only [LRU.eraseKey, hk, if_false, LRU.findEntry]
      exact ih hnd.2

/-! ## Claim C1: put/get round trip -/

/-- C1: the claim says that for both caches `put(k,v)` immediately followed
by `get(k)` returns `(v, true)` when no eviction removed `k`.  On the
frequency cache the very first such pair already fails: `Put` stores the key
in the count-1 bucket, and `Get` promotes it, emptying and destroying that
bucket; `incrementFrequency` then calls `Len()` on the nil result of
`getFrequencyList(1)` and the program panics instead of returning
`("value1", true)` (the repository's own test `TestPut_Get_Simple` expects
the normal return). -/
theorem C1_put_get_round_trip_panics :
    (do
      let c0 ← NewLFUCache 2
      let c1 ← c0.Put (GoVal.str "key1") (GoVal.str "value1")
      c1.Get (GoVal.str "key1")) =
    Except.error "invalid memory address or nil pointer dereference" := rfl

/-! ## Claim C2: the promotion step -/

/-- C2: the claim says a touch of an entry with count `c` removes it from
bucket `c`, destroys the bucket when emptied, sets `minFrequency = c+1` when
`c` was the minimum, moves the entry to the tail of bucket `c+1`, and
completes normally.  First conjunct: when the touch empties the
`minFrequency` bucket the code panics (nil `Len()` after the bucket was
destroyed), so `minFrequency` is never updated and the operation does not
complete.  Second conjunct: when the old bucket stays non-empty the
promotion does work — the entry ends at the tail of bucket `c+1` with count
`c+1`. -/
theorem C2_promotion_step :
    ((do
      let c0 ← NewLFUCache 3
      let c1 ← c0.Put (GoVal.str "a") (GoVal.str "x")
      c1.Put (GoVal.str "a") (GoVal.str "y")) =
     Except.error "invalid memory address or nil pointer dereference") ∧
    ((do
      let c0 ← NewLFUCache 3
      let c1 ← c0.Put (GoVal.str "a") (GoVal.str "x")
      let c2 ← c1.Put (GoVal.str "b") (GoVal.str "z")
      let r ← c2.Get (GoVal.str "a")
      pure r.2.2.freqNodes) =
     Except.ok [(1, [{ key := GoVal.str "b", value := GoVal.str "z", frequency := 1 }]),
                (2, [{ key := GoVal.str "a", value := GoVal.str "x", frequency := 2 }])]) :=
  ⟨rfl, rfl⟩

/-! ## Claim C5: zero-capacity construction of the recency cache -/

/-- C5: the claim (and the repository's own test `TestLRU_ZeroCapacity`)
says constructing the recency cache with capacity 0 succeeds and yields a
no-storage cache.  The code's `NewLRUCache` panics for every `n <= 0`,
capacity 0 included (first conjunct).  The remaining conjuncts evaluate the
methods on the capacity-0 state the test expects to obtain: `Add` returns
true and stores nothing, `Get` misses, the size stays 0 — the claimed
degenerate behaviour is implemented in `Add` but unreachable through the
constructor. -/
theorem C5_zero_capacity :
    NewLRUCache 0 = Except.error "capacity must be positive" ∧
    (LRU.Add { capacity := 0, queue := [] } (GoVal.str "k") (GoVal.str "v")).2 = true ∧
    (LRU.Add { capacity := 0, queue := [] } (GoVal.str "k") (GoVal.str "v")).1 =
      { capacity := 0, queue := [] } ∧
    (LRU.Get { capacity := 0, queue := [] } (GoVal.str "k")).2.1 = false ∧
    LRU.size { capacity := 0, queue := [] } = 0 :=
  ⟨rfl, rfl, rfl, rfl, rfl⟩

/-! ## Claim C6: remove on both caches -/

/-- C6 counterexample: the claim says both implementations expose
`remove(key)`; the frequency cache's source file defines no remove method
(its method inventory is `lfuMethodNames`). -/
theorem C6_no_lfu_remove : "Remove" ∉ lfuMethodNames := by decide

/-- C6 amended: the recency cache's `Remove` deletes the key if present and
returns whether it was present; on an absent key it returns false and
leaves the whole state unchanged (hence idempotent); after a successful
removal the key is gone, the size drops by one, and removing it again
returns false on the unchanged state.  The frequency cache defines no
remove operation. -/
theorem C6_remove_semantics (L : LRU) (k : GoVal)
    (hnd : (L.queue.map Prod.fst).Nodup) :
    (LRU.findEntry L.queue k = none → L.Remove k = (L, false)) ∧
    (LRU.findEntry L.queue k ≠ none →
      (L.Remove k).2 = true ∧
      (L.Remove k).1.size + 1 = L.size ∧
      LRU.findEntry (L.Remove k).1.queue k = none ∧
      (L.Remove k).1.Remove k = ((L.Remove k).1, false)) ∧
    "Remove" ∉ lfuMethodNames := by
  refine ⟨?_, ?_, by decide⟩
  · intro h
    simp [LRU.Remove, h]
  · intro h
    match he : LRU.findEntry L.queue k with
    | none => exact absurd he h
    | some e =>
      have hq : L.Remove k = ({ L with queue := LRU.eraseKey L.queue k }, true) := by
        simp [LRU.Remove, he]
      have hgone : LRU.findEntry (LRU.eraseKey L.queue k) k = none :=
        LRU.findEntry_eraseKey_self L.queue k hnd
      refine ⟨by rw [hq], ?_, ?_, ?_⟩
      · rw [hq]
        exact LRU.length_eraseKey_of_found L.queue k e he
      · rw [hq]
        exact hgone
      · rw [hq]
        simp [LRU.Remove, hgone]

/-- C6 witness: removing a present key from a concrete recency cache. -/
theorem C6_remove_semantics_witness :
    (LRU.Remove { capacity := 2, queue := [(GoVal.str "a", GoVal.str "1")] }
      (GoVal.str "a")).2 = true := by
  have h := C6_remove_semantics
    { capacity := 2, queue := [(GoVal.str "a", GoVal.str "1")] }
    (GoVal.str "a") (by decide)
  exact (h.2.1 (by decide)).1

/-! ## Claim C7: put returns a boolean -/

/-- C7 counterexample: the claim says both implementations' put returns a
boolean; the Go signature of the frequency cache's `Put` declares no
results, in particular not `bool`. -/
theorem C7_lfu_put_no_bool : lfuPutResultTypes ≠ ["bool"] := by decide

/-- C7 amended: the recency cache's `Add` returns a boolean that is true
exactly when the key was absent (in which case the key is inserted unless
the capacity is 0, evicting the back entry when full) and false when the
key was present (after the move-to-front touch); the frequency cache's
`Put` declares no results, though it performs the insertion, eviction and
touch side effects. -/
theorem C7_put_bool_semantics :
    (∀ (L : LRU) (k v : GoVal),
      (L.Add k v).2 = (LRU.findEntry L.queue k).isNone) ∧
    lfuPutResultTypes = [] := by
  refine ⟨fun L k v => ?_, rfl⟩
  match he : LRU.findEntry L.queue k with
  | some e => simp [LRU.Add, he]
  | none =>
    by_cases hc : L.capacity = 0
    · simp [LRU.Add, he, hc]
    · simp [LRU.Add, he, hc]

/-! ## Claim C8: scenario D (minFrequency after eviction) -/

/-- Scenario D of the spec, run against the code: capacity 2, `put(k1)`,
`put(k2)`, `get(k1)`, then `put(k3)` of a new key. -/
def scenarioD : Except String LFUCache := do
  let c0 ← NewLFUCache 2
  let c1 ← c0.Put (GoVal.str "k1") (GoVal.str "v1")
  let c2 ← c1.Put (GoVal.str "k2") (GoVal.str "v2")
  let r ← c2.Get (GoVal.str "k1")
  r.2.2.Put (GoVal.str "k3") (GoVal.str "v3")

/-- C8 counterexample: after scenario D the code's `minFreq` is 1, not 2 as
the claim (and the repository's test `TestEvict_UpdateMinFreq`) states:
eviction does not touch `minFreq`, and the insertion of the new count-1
entry k3 sets it to 1 unconditionally. -/
theorem C8_minfreq_not_two :
    scenarioD.map LFUCache.minFreq = Except.ok 1 ∧
    scenarioD.map LFUCache.minFreq ≠ Except.ok 2 := by
  refine ⟨rfl, ?_⟩
  intro h
  rw [show scenarioD.map LFUCache.minFreq = Except.ok 1 from rfl] at h
  simp at h

/-- C8 amended: in scenario D `put(k3)` evicts k2 (the only count-1 entry)
and `minFrequency` then becomes 1, set unconditionally by the fresh
insertion of k3, itself now a count-1 entry: the final state holds exactly
k3 with count 1 and k1 with count 2. -/
theorem C8_scenario_d : scenarioD =
    Except.ok { capacity := 2, minFreq := 1,
                freqNodes := [(1, [{ key := GoVal.str "k3", value := GoVal.str "v3",
                                     frequency := 1 }]),
                              (2, [{ key := GoVal.str "k1", value := GoVal.str "v1",
                                     frequency := 2 }])] } :=
  rfl

/-! ## Claim C9: recency put on an existing key -/

/-- C9: on the recency cache a put of an existing key returns false, moves
the entry to the head of the sequence, keeps the stored value (the old
value, not the new one, stays retrievable via `Get`), and leaves the length
and every other key's entry unchanged. -/
theorem C9_put_existing_touch (L : LRU) (k v' w : GoVal)
    (hfound : LRU.findEntry L.queue k = some (k, v')) :
    L.Add k w = ({ L with queue := (k, v') :: LRU.eraseKey L.queue k }, false) ∧
    (L.Add k w).1.queue.head? = some (k, v') ∧
    (L.Add k w).1.size = L.size ∧
    (∀ k2, k2 ≠ k →
      LRU.findEntry (L.Add k w).1.queue k2 = LRU.findEntry L.queue k2) ∧
    (L.Add k w).1.Get k = (v', true, (L.Add k w).1) := by
  have hadd : L.Add k w = ({ L with queue := (k, v') :: LRU.eraseKey L.queue k }, false) := by
    simp [LRU.Add, hfound]
  refine ⟨hadd, by rw [hadd]; rfl, ?_, ?_, ?_⟩
  · rw [hadd]
    show (LRU.eraseKey L.queue k).length + 1 = L.queue.length
    exact LRU.length_eraseKey_of_found L.queue k (k, v') hfound
  · intro k2 hne
    rw [hadd]
    show LRU.findEntry ((k, v') :: LRU.eraseKey L.queue k) k2 = LRU.findEntry L.queue k2
    simp only [LRU.findEntry]
    rw [if_neg (fun h => hne h.symm)]
    exact LRU.findEntry_eraseKey_ne L.queue k k2 hne
  · rw [hadd]
    simp [LRU.Get, LRU.findEntry, LRU.eraseKey]

/-- C9 witness: scenario B of the spec, `put("key1","value1")` then
`put("key1","value2")`, on a capacity-2 cache. -/
theorem C9_put_existing_touch_witness :
    (LRU.Add { capacity := 2, queue := [(GoVal.str "key1", GoVal.str "value1")] }
      (GoVal.str "key1") (GoVal.str "value2")).1.queue.head? =
      some (GoVal.str "key1", GoVal.str "value1") :=
  (C9_put_existing_touch
    { capacity := 2, queue := [(GoVal.str "key1", GoVal.str "value1")] }
    (GoVal.str "key1") (GoVal.str "value1") (GoVal.str "value2") (by decide)).2.1

/-! ## Claim C10: the two miss results -/

/-- C10: on a miss the recency cache's `Get` returns the empty string with
found = false and the frequency cache's `Get` returns nil with found =
false, both leaving the state unchanged. -/
theorem C10_miss_zero_values (L : LRU) (c : LFUCache) (k1 k2 : GoVal)
    (h1 : LRU.findEntry L.queue k1 = none)
    (h2 : lookupItem c.freqNodes k2 = none) :
    L.Get k1 = (GoVal.str "", false, L) ∧
    c.Get k2 = Except.ok (GoVal.nil, false, c) := by
  constructor
  · simp [LRU.Get, h1]
  · simp [LFUCache.Get, h2]

/-- C10 witness: misses on concrete non-empty caches of both kinds. -/
theorem C10_miss_zero_values_witness :
    (LRU.Get { capacity := 2, queue := [(GoVal.str "a", GoVal.str "1")] }
       (GoVal.str "b")).1 = GoVal.str "" ∧
    (LFUCache.Get { capacity := 2, minFreq := 1,
                    freqNodes := [(1, [{ key := GoVal.str "a",
                                         value := GoVal.str "1",
                                         frequency := 1 }])] }
       (GoVal.str "b")) = Except.ok (GoVal.nil, false,
         { capacity := 2, minFreq := 1,
           freqNodes := [(1, [{ key := GoVal.str "a", value := GoVal.str "1",
                                frequency := 1 }])] }) := by
  have h := C10_miss_zero_values
    { capacity := 2, queue := [(GoVal.str "a", GoVal.str "1")] }
    { capacity := 2, minFreq := 1,
      freqNodes := [(1, [{ key := GoVal.str "a", value := GoVal.str "1",
                           frequency := 1 }])] }
    (GoVal.str "b") (GoVal.str "b") (by decide) (by decide)
  exact ⟨by rw [h.1], h.2⟩

/-! ## Lemmas about the frequency structure -/

theorem sizeNodes_eq (ns : List (Nat × List CacheItem)) :
    sizeNodes ns = (keysNodes ns).length := by
  induction ns with
  | nil => rfl
  | cons p rest ih =>
    obtain ⟨f, b⟩ := p
    simp [sizeNodes, keysNodes, ih]

theorem findInBucket_eq_none_iff (b : List CacheItem) (k : GoVal) :
    findInBucket b k = none ↔ k ∉ b.map CacheItem.key := by
  induction b with
  | nil => simp [findInBucket]
  | cons it its ih =>
    by_cases hk : it.key = k
    · simp [findInBucket, hk]
    · have hk2 : ¬ k = it.key := fun h => hk h.symm
      simp [findInBucket, hk, hk2, ih]

theorem findInBucket_some (b : List CacheItem) (k : GoVal) (it : CacheItem)
    (h : findInBucket b k = some it) : it.key = k ∧ it ∈ b := by
  induction b with
  | nil => simp [findInBucket] at h
  | cons a as ih =>
    by_cases hk : a.key = k
    · simp only [findInBucket, hk, if_true, Option.some.injEq] at h
      exact ⟨by rw [← h, hk], by rw [← h]; exact List.mem_cons_self a as⟩
    · simp only [findInBucket, hk, if_false] at h
      exact ⟨(ih h).1, List.mem_cons_of_mem a (ih h).2⟩

theorem lookupItem_none_iff (ns : List (Nat × List CacheItem)) (k : GoVal) :
    lookupItem ns k = none ↔ k ∉ keysNodes ns := by
  induction ns with
  | nil => simp [lookupItem, keysNodes]
  | cons p rest ih =>
    obtain ⟨f, b⟩ := p
    match hb : findInBucket b k with
    | some it =>
      have hmem : k ∈ b.map CacheItem.key := by
        obtain ⟨h1, h2⟩ := findInBucket_some b k it hb
        exact h1 ▸ List.mem_map_of_mem CacheItem.key h2
      simp only [lookupItem, hb, keysNodes]
      constructor
      · intro h; exact absurd h (by simp)
      · intro h; exact absurd (List.mem_append_left _ hmem) h
    | none =>
      simp only [lookupItem, hb, keysNodes, ih, List.mem_append, not_or]
      have : k ∉ b.map CacheItem.key := (findInBucket_eq_none_iff b k).mp hb
      exact ⟨fun h => ⟨this, h⟩, fun h => h.2⟩

theorem lookupItem_some (ns : List (Nat × List CacheItem)) (k : GoVal)
    (it : CacheItem) (h : lookupItem ns k = some it) :
    it.key = k ∧ ∃ p, p ∈ ns ∧ it ∈ p.2 := by
  induction ns with
  | nil => simp [lookupItem] at h
  | cons p rest ih =>
    obtain ⟨f, b⟩ := p
    match hb : findInBucket b k with
    | some it2 =>
      simp only [lookupItem, hb, Option.some.injEq] at h
      rw [← h]
      exact ⟨(findInBucket_some b k it2 hb).1,
        ⟨(f, b), List.mem_cons_self _ _, (findInBucket_some b k it2 hb).2⟩⟩
    | none =>
      simp only [lookupItem, hb] at h
      obtain ⟨h1, p, hp, hit⟩ := ih h
      exact ⟨h1, p, List.mem_cons_of_mem _ hp, hit⟩

theorem eraseItemKey_sublist (b : List CacheItem) (k : GoVal) :
    List.Sublist (eraseItemKey b k) b := by
  induction b with
  | nil => simp [eraseItemKey]
  | cons a as ih =>
    by_cases hk : a.key = k
    · simp only [eraseItemKey, hk, if_true]
      exact List.sublist_cons_self a as
    · simp only [eraseItemKey, hk, if_false]
      exact ih.cons₂ a

theorem length_eraseItemKey_of_mem (b : List CacheItem) (k : GoVal)
    (h : k ∈ b.map CacheItem.key) :
    (eraseItemKey b k).length + 1 = b.length := by
  induction b with
  | nil => simp at h
  | cons a as ih =>
    by_cases hk : a.key = k
    · simp [eraseItemKey, hk]
    · simp only [List.map_cons, List.mem_cons] at h
      have h2 : k ∈ as.map CacheItem.key := by
        rcases h with h | h
        · exact absurd h.symm hk
        · exact h
      have h3 := ih h2
      simp only [eraseItemKey, hk, if_false, List.length_cons]
      omega

theorem not_mem_keys_eraseItemKey (b : List CacheItem) (k : GoVal)
    (hnd : (b.map CacheItem.key).Nodup) :
    k ∉ (eraseItemKey b k).map CacheItem.key := by
  induction b with
  | nil => simp [eraseItemKey]
  | cons a as ih =>
    simp only [List.map_cons, List.nodup_cons] at hnd
    by_cases hk : a.key = k
    · simp only [eraseItemKey, hk, if_true]
      rw [← hk]
      exact hnd.1
    · simp only [eraseItemKey, hk, if_false, List.map_cons, List.mem_cons, not_or]
      exact ⟨fun h => hk h.symm, ih hnd.2⟩

theorem keysNodes_remove_sublist (ns : List (Nat × List CacheItem)) (f : Nat)
    (k : GoVal) :
    List.Sublist (keysNodes (removeFromFrequencyList ns f k)) (keysNodes ns) := by
  induction ns with
  | nil => simp [removeFromFrequencyList]
  | cons p rest ih =>
    obtain ⟨g, b⟩ := p
    by_cases hg : g = f
    · simp only [removeFromFrequencyList, hg, if_true]
      by_cases hlen : (eraseItemKey b k).length = 0
      · rw [if_pos hlen]
        simp only [keysNodes]
        exact List.sublist_append_right _ _
      · rw [if_neg hlen]
        simp only [keysNodes]
        exact ((eraseItemKey_sublist b k).map CacheItem.key).append_right _
    · simp only [removeFromFrequencyList, hg, if_false, keysNodes]
      exact ih.append_left _

theorem freqs_remove_sublist (ns : List (Nat × List CacheItem)) (f : Nat)
    (k : GoVal) :
    List.Sublist ((removeFromFrequencyList ns f k).map Prod.fst)
      (ns.map Prod.fst) := by
  induction ns with
  | nil => simp [removeFromFrequencyList]
  | cons p rest ih =>
    obtain ⟨g, b⟩ := p
    by_cases hg : g = f
    · simp only [removeFromFrequencyList, hg, if_true]
      by_cases hlen : (eraseItemKey b k).length = 0
      · rw [if_pos hlen]
        simp only [List.map_cons]
        exact (List.Sublist.refl _).cons f
      · rw [if_neg hlen]
        simp only [List.map_cons]
        exact List.Sublist.refl _
    · simp only [removeFromFrequencyList, hg, if_false, List.map_cons]
      exact ih.cons₂ g

theorem nonempty_remove (ns : List (Nat × List CacheItem)) (f : Nat) (k : GoVal)
    (h : ∀ p ∈ ns, p.2 ≠ []) :
    ∀ p ∈ removeFromFrequencyList ns f k, p.2 ≠ [] := by
  induction ns with
  | nil => simp [removeFromFrequencyList]
  | cons q rest ih =>
    obtain ⟨g, b⟩ := q
    have hrest : ∀ p ∈ rest, p.2 ≠ [] := fun p hp => h p (List.mem_cons_of_mem _ hp)
    by_cases hg : g = f
    · simp only [removeFromFrequencyList, hg, if_true]
      by_cases hlen : (eraseItemKey b k).length = 0
      · rw [if_pos hlen]
        exact hrest
      · rw [if_neg hlen]
        intro p hp
        rcases List.mem_cons.mp hp with hp | hp
        · rw [hp]
          show eraseItemKey b k ≠ []
          exact fun hnil => hlen (by rw [hnil]; rfl)
        · exact hrest p hp
    · simp only [removeFromFrequencyList, hg, if_false]
      intro p hp
      rcases List.mem_cons.mp hp with hp | hp
      · rw [hp]
        exact h (g, b) (List.mem_cons_self _ _)
      · exact ih hrest p hp

theorem freqsync_remove (ns : List (Nat × List CacheItem)) (f : Nat) (k : GoVal)
    (h : ∀ p ∈ ns, ∀ it ∈ p.2, it.frequency = p.1) :
    ∀ p ∈ removeFromFrequencyList ns f k, ∀ it ∈ p.2, it.frequency = p.1 := by
  induction ns with
  | nil => simp [removeFromFrequencyList]
  | cons q rest ih =>
    obtain ⟨g, b⟩ := q
    have hrest : ∀ p ∈ rest, ∀ it ∈ p.2, it.frequency = p.1 :=
      fun p hp => h p (List.mem_cons_of_mem _ hp)
    by_cases hg : g = f
    · simp only [removeFromFrequencyList, hg, if_true]
      by_cases hlen : (eraseItemKey b k).length = 0
      · rw [if_pos hlen]
        exact hrest
      · rw [if_neg hlen]
        intro p hp
        rcases List.mem_cons.mp hp with hp | hp
        · rw [hp]
          intro it hit
          show it.frequency = f
          rw [← hg]
          exact h (g, b) (List.mem_cons_self _ _) it
            ((eraseItemKey_sublist b k).subset hit)
        · exact hrest p hp
    · simp only [removeFromFrequencyList, hg, if_false]
      intro p hp
      rcases List.mem_cons.mp hp with hp | hp
      · rw [hp]
        exact h (g, b) (List.mem_cons_self _ _)
      · exact ih hrest p hp

theorem mem_keysNodes_of_getFreq (ns : List (Nat × List CacheItem)) (f : Nat)
    (b : List CacheItem) (x : GoVal) (hb : getFrequencyList ns f = some b)
    (hx : x ∈ b.map CacheItem.key) : x ∈ keysNodes ns := by
  induction ns with
  | nil => simp [getFrequencyList] at hb
  | cons q rest ih =>
    obtain ⟨g, bg⟩ := q
    by_cases hg : g = f
    · simp only [getFrequencyList, hg, if_true, Option.some.injEq] at hb
      simp only [keysNodes]
      exact List.mem_append_left _ (hb ▸ hx)
    · simp only [getFrequencyList, hg, if_false] at hb
      simp only [keysNodes]
      exact List.mem_append_right _ (ih hb)

theorem sizeNodes_remove (ns : List (Nat × List CacheItem)) (f : Nat) (k : GoVal)
    (b : List CacheItem) (hb : getFrequencyList ns f = some b)
    (hk : k ∈ b.map CacheItem.key) :
    sizeNodes (removeFromFrequencyList ns f k) + 1 = sizeNodes ns := by
  induction ns with
  | nil => simp [getFrequencyList] at hb
  | cons q rest ih =>
    obtain ⟨g, bg⟩ := q
    by_cases hg : g = f
    · simp only [getFrequencyList, hg, if_true, Option.some.injEq] at hb
      have hkg : k ∈ bg.map CacheItem.key := hb ▸ hk
      have hlen2 := length_eraseItemKey_of_mem bg k hkg
      simp only [removeFromFrequencyList, hg, if_true]
      by_cases hlen : (eraseItemKey bg k).length = 0
      · rw [if_pos hlen]
        simp only [sizeNodes]
        omega
      · rw [if_neg hlen]
        simp only [sizeNodes]
        omega
    · simp only [getFrequencyList, hg, if_false] at hb
      simp only [removeFromFrequencyList, hg, if_false, sizeNodes]
      have := ih hb
      omega

theorem not_mem_keys_remove (ns : List (Nat × List CacheItem)) (f : Nat)
    (k : GoVal) (b : List CacheItem) (hnd : (keysNodes ns).Nodup)
    (hb : getFrequencyList ns f = some b) (hk : k ∈ b.map CacheItem.key) :
    k ∉ keysNodes (removeFromFrequencyList ns f k) := by
  induction ns with
  | nil => simp [getFrequencyList] at hb
  | cons q rest ih =>
    obtain ⟨g, bg⟩ := q
    simp only [keysNodes] at hnd
    have hdisj := List.disjoint_of_nodup_append hnd
    by_cases hg : g = f
    · simp only [getFrequencyList, hg, if_true, Option.some.injEq] at hb
      have hkg : k ∈ bg.map CacheItem.key := hb ▸ hk
      have hkrest : k ∉ keysNodes rest := fun hr => hdisj hkg hr
      simp only [removeFromFrequencyList, hg, if_true]
      by_cases hlen : (eraseItemKey bg k).length = 0
      · rw [if_pos hlen]
        exact hkrest
      · rw [if_neg hlen]
        simp only [keysNodes, List.mem_append, not_or]
        exact ⟨not_mem_keys_eraseItemKey bg k hnd.of_append_left, hkrest⟩
    · simp only [getFrequencyList, hg, if_false] at hb
      have hkrest : k ∈ keysNodes rest := mem_keysNodes_of_getFreq rest f b k hb hk
      simp only [removeFromFrequencyList, hg, if_false, keysNodes, List.mem_append,
        not_or]
      exact ⟨fun hbg => hdisj hbg hkrest, ih hnd.of_append_right hb⟩

theorem getFrequencyList_of_mem (ns : List (Nat × List CacheItem))
    (p : Nat × List CacheItem) (hnd : (ns.map Prod.fst).Nodup) (hp : p ∈ ns) :
    getFrequencyList ns p.1 = some p.2 := by
  induction ns with
  | nil => simp at hp
  | cons q rest ih =>
    obtain ⟨g, bg⟩ := q
    simp only [List.map_cons, List.nodup_cons] at hnd
    rcases List.mem_cons.mp hp with hp2 | hp2
    · rw [hp2]
      obtain ⟨f, b⟩ := p
      simp [getFrequencyList]
    · have hne : ¬ (g, bg).1 = p.1 := by
        intro he
        have hm : p.1 ∈ rest.map Prod.fst := List.mem_map_of_mem Prod.fst hp2
        rw [← he] at hm
        exact hnd.1 hm
      simp only [getFrequencyList]
      rw [if_neg hne]
      exact ih hnd.2 hp2

theorem keysNodes_add_perm (ns : List (Nat × List CacheItem)) (f : Nat)
    (it : CacheItem) :
    List.Perm (keysNodes (addToFrequencyList ns f it)) (it.key :: keysNodes ns) := by
  induction ns with
  | nil => simp [addToFrequencyList, keysNodes]
  | cons q rest ih =>
    obtain ⟨g, b⟩ := q
    by_cases h1 : f = g
    · simp only [addToFrequencyList, h1, if_true, keysNodes, List.map_append,
        List.map_cons, List.map_nil, List.append_assoc, List.singleton_append]
      exact List.perm_middle
    · by_cases h2 : f < g
      · simp only [addToFrequencyList, h1, if_false, h2, if_true, keysNodes,
          List.map_cons, List.map_nil, List.singleton_append]
        exact List.Perm.refl _
      · simp only [addToFrequencyList, h1, if_false, h2, keysNodes]
        exact ((ih.append_left _).trans List.perm_middle)

theorem sizeNodes_add (ns : List (Nat × List CacheItem)) (f : Nat)
    (it : CacheItem) :
    sizeNodes (addToFrequencyList ns f it) = sizeNodes ns + 1 := by
  have h1 := sizeNodes_eq (addToFrequencyList ns f it)
  have h2 := sizeNodes_eq ns
  have h3 := (keysNodes_add_perm ns f it).length_eq
  simp only [List.length_cons] at h3
  omega

theorem nonempty_add (ns : List (Nat × List CacheItem)) (f : Nat)
    (it : CacheItem) (h : ∀ p ∈ ns, p.2 ≠ []) :
    ∀ p ∈ addToFrequencyList ns f it, p.2 ≠ [] := by
  induction ns with
  | nil =>
    intro p hp
    simp only [addToFrequencyList, List.mem_singleton] at hp
    rw [hp]
    simp
  | cons q rest ih =>
    obtain ⟨g, b⟩ := q
    have hrest : ∀ p ∈ rest, p.2 ≠ [] := fun p hp => h p (List.mem_cons_of_mem _ hp)
    by_cases h1 : f = g
    · simp only [addToFrequencyList, h1, if_true]
      intro p hp
      rcases List.mem_cons.mp hp with hp | hp
      · rw [hp]
        simp
      · exact hrest p hp
    · by_cases h2 : f < g
      · simp only [addToFrequencyList, h1, if_false, h2, if_true]
        intro p hp
        rcases List.mem_cons.mp hp with hp | hp
        · rw [hp]
          simp
        · exact h p hp
      · simp only [addToFrequencyList, h1, if_false, h2]
        intro p hp
        rcases List.mem_cons.mp hp with hp | hp
        · rw [hp]
          exact h (g, b) (List.mem_cons_self _ _)
        · exact ih hrest p hp

theorem mem_freqs_add (ns : List (Nat × List CacheItem)) (f : Nat)
    (it : CacheItem) (x : Nat)
    (hx : x ∈ (addToFrequencyList ns f it).map Prod.fst) :
    x = f ∨ x ∈ ns.map Prod.fst := by
  induction ns with
  | nil =>
    simp only [addToFrequencyList, List.map_cons, List.map_nil,
      List.mem_singleton] at hx
    exact Or.inl hx
  | cons q rest ih =>
    obtain ⟨g, b⟩ := q
    by_cases h1 : f = g
    · simp only [addToFrequencyList, h1, if_true, List.map_cons] at hx
      rw [h1]
      simpa using hx
    · by_cases h2 : f < g
      · simp only [addToFrequencyList, h1, if_false, h2, if_true,
          List.map_cons] at hx
        simpa using hx
      · simp only [addToFrequencyList, h1, if_false, h2, List.map_cons,
          List.mem_cons] at hx
        rcases hx with hx | hx
        · exact Or.inr (by simp [hx])
        · rcases ih hx with hx | hx
          · exact Or.inl hx
          · exact Or.inr (by simp [hx])

theorem pairwise_add (ns : List (Nat × List CacheItem)) (f : Nat)
    (it : CacheItem)
    (h : List.Pairwise (fun a b => a < b) (ns.map Prod.fst)) :
    List.Pairwise (fun a b => a < b) ((addToFrequencyList ns f it).map Prod.fst) := by
  induction ns with
  | nil => simp [addToFrequencyList]
  | cons q rest ih =>
    obtain ⟨g, b⟩ := q
    simp only [List.map_cons, List.pairwise_cons] at h
    by_cases h1 : f = g
    · simp only [addToFrequencyList, h1, if_true, List.map_cons]
      exact List.pairwise_cons.mpr h
    · by_cases h2 : f < g
      · simp only [addToFrequencyList, h1, if_false, h2, if_true, List.map_cons]
        refine List.pairwise_cons.mpr ⟨?_, List.pairwise_cons.mpr h⟩
        intro y hy
        rcases List.mem_cons.mp hy with hy | hy
        · rw [hy]
          exact h2
        · exact Nat.lt_trans h2 (h.1 y hy)
      · simp only [addToFrequencyList, h1, if_false, h2, List.map_cons]
        refine List.pairwise_cons.mpr ⟨?_, ih h.2⟩
        intro y hy
        rcases mem_freqs_add rest f it y hy with hy | hy
        · rw [hy]
          exact Nat.lt_of_le_of_ne (Nat.le_of_not_lt h2) (fun hh => h1 hh.symm)
        · exact h.1 y hy

theorem freqsync_add (ns : List (Nat × List CacheItem)) (f : Nat)
    (it : CacheItem) (hit : it.frequency = f)
    (h : ∀ p ∈ ns, ∀ it2 ∈ p.2, it2.frequency = p.1) :
    ∀ p ∈ addToFrequencyList ns f it, ∀ it2 ∈ p.2, it2.frequency = p.1 := by
  induction ns with
  | nil =>
    intro p hp it2 hit2
    simp only [addToFrequencyList, List.mem_singleton] at hp
    rw [hp] at hit2 ⊢
    simp only [List.mem_singleton] at hit2
    rw [hit2]
    exact hit
  | cons q rest ih =>
    obtain ⟨g, b⟩ := q
    have hrest : ∀ p ∈ rest, ∀ it2 ∈ p.2, it2.frequency = p.1 :=
      fun p hp => h p (List.mem_cons_of_mem _ hp)
    by_cases h1 : f = g
    · simp only [addToFrequencyList, h1, if_true]
      intro p hp it2 hit2
      rcases List.mem_cons.mp hp with hp | hp
      · rw [hp] at hit2 ⊢
        simp only [List.mem_append, List.mem_singleton] at hit2
        rcases hit2 with hit2 | hit2
        · exact h (g, b) (List.mem_cons_self _ _) it2 hit2
        · rw [hit2]
          show it.frequency = g
          rw [hit, h1]
      · exact hrest p hp it2 hit2
    · by_cases h2 : f < g
      · simp only [addToFrequencyList, h1, if_false, h2, if_true]
        intro p hp it2 hit2
        rcases List.mem_cons.mp hp with hp | hp
        · rw [hp] at hit2 ⊢
          simp only [List.mem_singleton] at hit2
          rw [hit2]
          exact hit
        · exact h p hp it2 hit2
      · simp only [addToFrequencyList, h1, if_false, h2]
        intro p hp it2 hit2
        rcases List.mem_cons.mp hp with hp | hp
        · rw [hp] at hit2 ⊢
          exact h (g, b) (List.mem_cons_self _ _) it2 hit2
        · exact ih hrest p hp it2 hit2

/-- Well-formedness of the frequency structure, established by construction
and maintained by every completed operation: no persisted empty bucket,
strictly ascending bucket frequencies, no key stored twice, and every
item's frequency field equal to its bucket's frequency. -/
def NodesInv (ns : List (Nat × List CacheItem)) : Prop :=
  (∀ p ∈ ns, p.2 ≠ []) ∧
  List.Pairwise (fun a b => a < b) (ns.map Prod.fst) ∧
  (keysNodes ns).Nodup ∧
  (∀ p ∈ ns, ∀ it ∈ p.2, it.frequency = p.1)

theorem evict_inv (c : LFUCache) (f : Nat) (x : CacheItem)
    (b' : List CacheItem) (rest : List (Nat × List CacheItem))
    (hq : c.freqNodes = (f, x :: b') :: rest)
    (hN : NodesInv c.freqNodes) :
    NodesInv c.evict.freqNodes ∧
    sizeNodes c.evict.freqNodes + 1 = sizeNodes c.freqNodes ∧
    List.Sublist (keysNodes c.evict.freqNodes) (keysNodes c.freqNodes) ∧
    c.evict.capacity = c.capacity := by
  obtain ⟨hNE, hPW, hND, hSY⟩ := hN
  rw [hq] at hNE hPW hND hSY
  have hev : c.evict.freqNodes =
      (if b'.length = 0 then rest else (f, b') :: rest) ∧
      c.evict.capacity = c.capacity := by
    simp only [LFUCache.evict, hq]
    by_cases hlen : b'.length = 0
    · rw [if_pos hlen, if_pos hlen]
      exact ⟨rfl, rfl⟩
    · rw [if_neg hlen, if_neg hlen]
      exact ⟨rfl, rfl⟩
  have hkeys : keysNodes c.evict.freqNodes =
      b'.map CacheItem.key ++ keysNodes rest := by
    rw [hev.1]
    by_cases hlen : b'.length = 0
    · rw [if_pos hlen, List.length_eq_zero.mp hlen]
      rfl
    · rw [if_neg hlen]
      rfl
  have hkeys0 : keysNodes c.freqNodes =
      x.key :: (b'.map CacheItem.key ++ keysNodes rest) := by
    rw [hq]
    rfl
  have hrestNE : ∀ p ∈ rest, p.2 ≠ [] :=
    fun p hp => hNE p (List.mem_cons_of_mem _ hp)
  have hNE2 : ∀ p ∈ c.evict.freqNodes, p.2 ≠ [] := by
    rw [hev.1]
    by_cases hlen : b'.length = 0
    · rw [if_pos hlen]
      exact hrestNE
    · rw [if_neg hlen]
      intro p hp
      rcases List.mem_cons.mp hp with hp | hp
      · rw [hp]
        exact fun hnil => hlen (by rw [show b' = [] from hnil]; rfl)
      · exact hrestNE p hp
  have hPW2 : List.Pairwise (fun a b => a < b)
      (c.evict.freqNodes.map Prod.fst) := by
    rw [hev.1]
    by_cases hlen : b'.length = 0
    · rw [if_pos hlen]
      simp only [List.map_cons] at hPW
      exact hPW.of_cons
    · rw [if_neg hlen]
      simp only [List.map_cons] at hPW ⊢
      exact hPW
  have hND2 : (keysNodes c.evict.freqNodes).Nodup := by
    rw [hkeys]
    rw [show keysNodes ((f, x :: b') :: rest) =
      x.key :: (b'.map CacheItem.key ++ keysNodes rest) from rfl] at hND
    exact hND.of_cons
  have hSY2 : ∀ p ∈ c.evict.freqNodes, ∀ it ∈ p.2, it.frequency = p.1 := by
    rw [hev.1]
    have hSYrest : ∀ p ∈ rest, ∀ it ∈ p.2, it.frequency = p.1 :=
      fun p hp => hSY p (List.mem_cons_of_mem _ hp)
    by_cases hlen : b'.length = 0
    · rw [if_pos hlen]
      exact hSYrest
    · rw [if_neg hlen]
      intro p hp
      rcases List.mem_cons.mp hp with hp | hp
      · rw [hp]
        intro it hit
        exact hSY (f, x :: b') (List.mem_cons_self _ _) it
          (List.mem_cons_of_mem x hit)
      · exact hSYrest p hp
  refine ⟨⟨hNE2, hPW2, hND2, hSY2⟩, ?_, ?_, hev.2⟩
  · rw [sizeNodes_eq, sizeNodes_eq, hkeys, hkeys0]
    simp
  · rw [hkeys, hkeys0]
    exact List.sublist_cons_self _ _

theorem incrementFrequency_ok (c : LFUCache) (it : CacheItem) (c' : LFUCache)
    (h : c.incrementFrequency it = Except.ok c') :
    c'.freqNodes = addToFrequencyList
      (removeFromFrequencyList c.freqNodes it.frequency it.key)
      (it.frequency + 1) { it with frequency := it.frequency + 1 } ∧
    c'.capacity = c.capacity := by
  simp only [LFUCache.incrementFrequency] at h
  split at h
  · split at h
    · exact absurd h (by simp)
    · split at h
      · cases h
        exact ⟨rfl, rfl⟩
      · cases h
        exact ⟨rfl, rfl⟩
  · cases h
    exact ⟨rfl, rfl⟩

theorem incrementFrequency_inv (c : LFUCache) (it : CacheItem)
    (b : List CacheItem) (c' : LFUCache)
    (hI : NodesInv c.freqNodes)
    (hb : getFrequencyList c.freqNodes it.frequency = some b)
    (hk : it.key ∈ b.map CacheItem.key)
    (h : c.incrementFrequency it = Except.ok c') :
    NodesInv c'.freqNodes ∧ sizeNodes c'.freqNodes = sizeNodes c.freqNodes ∧
    c'.capacity = c.capacity := by
  obtain ⟨hfn, hcap⟩ := incrementFrequency_ok c it c' h
  obtain ⟨hNE, hPW, hND, hSY⟩ := hI
  have hNE1 := nonempty_remove c.freqNodes it.frequency it.key hNE
  have hPW1 : List.Pairwise (fun a b => a < b)
      ((removeFromFrequencyList c.freqNodes it.frequency it.key).map Prod.fst) :=
    hPW.sublist (freqs_remove_sublist c.freqNodes it.frequency it.key)
  have hND1 : (keysNodes (removeFromFrequencyList c.freqNodes it.frequency
      it.key)).Nodup :=
    hND.sublist (keysNodes_remove_sublist c.freqNodes it.frequency it.key)
  have hSY1 := freqsync_remove c.freqNodes it.frequency it.key hSY
  have hnk := not_mem_keys_remove c.freqNodes it.frequency it.key b hND hb hk
  refine ⟨⟨?_, ?_, ?_, ?_⟩, ?_, hcap⟩
  · rw [hfn]
    exact nonempty_add _ _ _ hNE1
  · rw [hfn]
    exact pairwise_add _ _ _ hPW1
  · rw [hfn]
    refine ((keysNodes_add_perm _ _ _).nodup_iff).mpr ?_
    exact List.nodup_cons.mpr ⟨hnk, hND1⟩
  · rw [hfn]
    exact freqsync_add _ _ _ rfl hSY1
  · rw [hfn, sizeNodes_add]
    rw [sizeNodes_remove c.freqNodes it.frequency it.key b hb hk]

/-- The invariant of a reachable frequency-cache state: well-formed
structure and size within capacity. -/
def LFUInv (c : LFUCache) : Prop :=
  NodesInv c.freqNodes ∧ c.Size ≤ c.capacity

theorem lookup_bucket (ns : List (Nat × List CacheItem)) (k : GoVal)
    (it : CacheItem) (hN : NodesInv ns) (hl : lookupItem ns k = some it) :
    ∃ b, getFrequencyList ns it.frequency = some b ∧
      it.key ∈ b.map CacheItem.key := by
  obtain ⟨hNE, hPW, hND, hSY⟩ := hN
  obtain ⟨hkey, p, hp, hit⟩ := lookupItem_some ns k it hl
  have hfreq : it.frequency = p.1 := hSY p hp it hit
  have hndf : (ns.map Prod.fst).Nodup := hPW.imp (fun hlt => Nat.ne_of_lt hlt)
  have hg := getFrequencyList_of_mem ns p hndf hp
  exact ⟨p.2, by rw [hfreq]; exact hg, List.mem_map_of_mem CacheItem.key hit⟩

theorem Get_inv (c : LFUCache) (k : GoVal) (r : GoVal × Bool × LFUCache)
    (hI : LFUInv c) (h : c.Get k = Except.ok r) :
    LFUInv r.2.2 ∧ r.2.2.capacity = c.capacity := by
  obtain ⟨hN, hS⟩ := hI
  simp only [LFUCache.Get] at h
  split at h
  · rename_i it hl
    split at h
    · rename_i c1 hinc
      cases h
      obtain ⟨b, hb, hk⟩ := lookup_bucket c.freqNodes k it hN hl
      obtain ⟨hN2, hsz, hcap⟩ := incrementFrequency_inv c it b c1 hN hb hk hinc
      refine ⟨⟨hN2, ?_⟩, hcap⟩
      show sizeNodes c1.freqNodes ≤ c1.capacity
      rw [hsz, hcap]
      exact hS
    · exact absurd h (by simp)
  · cases h
    exact ⟨⟨hN, hS⟩, rfl⟩

theorem Put_inv (c : LFUCache) (k v : GoVal) (c' : LFUCache) (hI : LFUInv c)
    (h : c.Put k v = Except.ok c') :
    LFUInv c' ∧ c'.capacity = c.capacity := by
  obtain ⟨hN, hS⟩ := hI
  simp only [LFUCache.Put] at h
  split at h
  · cases h
    exact ⟨⟨hN, hS⟩, rfl⟩
  · rename_i hc
    split at h
    · rename_i it hl
      obtain ⟨b, hb, hk⟩ := lookup_bucket c.freqNodes k it hN hl
      obtain ⟨hN2, hsz, hcap⟩ :=
        incrementFrequency_inv c { it with value := v } b c' hN hb hk h
      refine ⟨⟨hN2, ?_⟩, hcap⟩
      show sizeNodes c'.freqNodes ≤ c'.capacity
      rw [hsz, hcap]
      exact hS
    · rename_i hl
      have hkabs : k ∉ keysNodes c.freqNodes := (lookupItem_none_iff _ k).mp hl
      cases h
      by_cases hev : c.Size ≥ c.capacity
      · rw [if_pos hev]
        -- full: size equals capacity, at least one entry exists
        have hsz0 : sizeNodes c.freqNodes = c.capacity :=
          Nat.le_antisymm hS hev
        have hpos : 1 ≤ sizeNodes c.freqNodes := by
          rw [hsz0]
          exact Nat.one_le_iff_ne_zero.mpr hc
        obtain ⟨f, x, b', rest, hq⟩ :
            ∃ f x b' rest, c.freqNodes = (f, x :: b') :: rest := by
          match hns : c.freqNodes with
          | [] =>
            rw [hns] at hpos
            simp [sizeNodes] at hpos
          | (f, []) :: rest =>
            exfalso
            have hm : (f, ([] : List CacheItem)) ∈ c.freqNodes := by
              rw [hns]
              exact List.mem_cons_self _ _
            exact hN.1 (f, []) hm rfl
          | (f, x :: b'') :: rest => exact ⟨f, x, b'', rest, rfl⟩
        obtain ⟨hNev, hszev, hkeysev, hcapev⟩ := evict_inv c f x b' rest hq hN
        have hkabs2 : k ∉ keysNodes c.evict.freqNodes :=
          fun hin => hkabs (hkeysev.subset hin)
        obtain ⟨hNE2, hPW2, hND2, hSY2⟩ := hNev
        refine ⟨⟨⟨?_, ?_, ?_, ?_⟩, ?_⟩, hcapev⟩
        · exact nonempty_add _ _ _ hNE2
        · exact pairwise_add _ _ _ hPW2
        · exact ((keysNodes_add_perm _ _ _).nodup_iff).mpr
            (List.nodup_cons.mpr ⟨hkabs2, hND2⟩)
        · exact freqsync_add _ _ _ rfl hSY2
        · show sizeNodes (addToFrequencyList c.evict.freqNodes 1
            { key := k, value := v, frequency := 1 }) ≤ c.evict.capacity
          rw [sizeNodes_add, hcapev]
          omega
      · rw [if_neg hev]
        have hlt : sizeNodes c.freqNodes < c.capacity := Nat.lt_of_not_le hev
        obtain ⟨hNE2, hPW2, hND2, hSY2⟩ := hN
        refine ⟨⟨⟨?_, ?_, ?_, ?_⟩, ?_⟩, rfl⟩
        · exact nonempty_add _ _ _ hNE2
        · exact pairwise_add _ _ _ hPW2
        · exact ((keysNodes_add_perm _ _ _).nodup_iff).mpr
            (List.nodup_cons.mpr ⟨hkabs, hND2⟩)
        · exact freqsync_add _ _ _ rfl hSY2
        · show sizeNodes (addToFrequencyList c.freqNodes 1
            { key := k, value := v, frequency := 1 }) ≤ c.capacity
          rw [sizeNodes_add]
          omega

theorem run_cons_ok (c : LFUCache) (op : LFUOp) (ops : List LFUOp)
    (c' : LFUCache) (h : c.run (op :: ops) = Except.ok c') :
    ∃ c1, c.step op = Except.ok c1 ∧ c1.run ops = Except.ok c' := by
  simp only [LFUCache.run] at h
  cases hstep : c.step op with
  | ok c1 =>
    rw [hstep] at h
    exact ⟨c1, rfl, h⟩
  | error e =>
    rw [hstep] at h
    exact absurd h (by simp)

theorem step_get_ok (c : LFUCache) (k : GoVal) (c1 : LFUCache)
    (h : c.step (LFUOp.get k) = Except.ok c1) :
    ∃ r, c.Get k = Except.ok r ∧ r.2.2 = c1 := by
  simp only [LFUCache.step] at h
  cases hg : c.Get k with
  | ok r =>
    rw [hg] at h
    have h2 : Except.ok r.2.2 = Except.ok c1 := h
    injection h2 with h3
    exact ⟨r, rfl, h3⟩
  | error e =>
    rw [hg] at h
    exact absurd h (by simp)

theorem step_inv (c : LFUCache) (op : LFUOp) (c1 : LFUCache) (hI : LFUInv c)
    (h : c.step op = Except.ok c1) :
    LFUInv c1 ∧ c1.capacity = c.capacity := by
  cases op with
  | put k v => exact Put_inv c k v c1 hI h
  | get k =>
    obtain ⟨r, hget, hr⟩ := step_get_ok c k c1 h
    rw [← hr]
    exact Get_inv c k r hI hget

theorem run_lfu_inv (ops : List LFUOp) (c : LFUCache) (c' : LFUCache)
    (hI : LFUInv c) (h : c.run ops = Except.ok c') :
    LFUInv c' ∧ c'.capacity = c.capacity := by
  induction ops generalizing c with
  | nil =>
    simp only [LFUCache.run] at h
    cases h
    exact ⟨hI, rfl⟩
  | cons op ops ih =>
    obtain ⟨c1, hstep, hrun⟩ := run_cons_ok c op ops c' h
    obtain ⟨h1, h2⟩ := step_inv c op c1 hI hstep
    obtain ⟨h3, h4⟩ := ih c1 h1 hrun
    exact ⟨h3, h4.trans h2⟩

/-- The LRU queue length stays within capacity and the capacity is never
modified, for each single operation. -/
theorem lru_add_bound (L : LRU) (k v : GoVal) (h : L.size ≤ L.capacity) :
    (L.Add k v).1.size ≤ L.capacity ∧ (L.Add k v).1.capacity = L.capacity := by
  simp only [LRU.Add]
  split
  · rename_i e he
    constructor
    · show (LRU.eraseKey L.queue k).length + 1 ≤ L.capacity
      rw [LRU.length_eraseKey_of_found L.queue k e he]
      exact h
    · rfl
  · by_cases hc : L.capacity = 0
    · rw [if_pos hc]
      exact ⟨h, rfl⟩
    · rw [if_neg hc]
      by_cases hf : L.queue.length = L.capacity
      · rw [if_pos hf]
        constructor
        · show L.queue.dropLast.length + 1 ≤ L.capacity
          rw [List.length_dropLast]
          omega
        · rfl
      · rw [if_neg hf]
        constructor
        · show L.queue.length + 1 ≤ L.capacity
          have : L.size ≠ L.capacity := hf
          have hsz : L.size ≤ L.capacity := h
          show L.size + 1 ≤ L.capacity
          omega
        · rfl

theorem lru_get_bound (L : LRU) (k : GoVal) (h : L.size ≤ L.capacity) :
    (L.Get k).2.2.size ≤ L.capacity ∧ (L.Get k).2.2.capacity = L.capacity := by
  simp only [LRU.Get]
  split
  · exact ⟨h, rfl⟩
  · rename_i e he
    constructor
    · show (LRU.eraseKey L.queue k).length + 1 ≤ L.capacity
      rw [LRU.length_eraseKey_of_found L.queue k e he]
      exact h
    · rfl

theorem lru_remove_bound (L : LRU) (k : GoVal) (h : L.size ≤ L.capacity) :
    (L.Remove k).1.size ≤ L.capacity ∧ (L.Remove k).1.capacity = L.capacity := by
  simp only [LRU.Remove]
  split
  · constructor
    · show (LRU.eraseKey L.queue k).length ≤ L.capacity
      exact Nat.le_trans (LRU.length_eraseKey_le L.queue k) h
    · rfl
  · exact ⟨h, rfl⟩

theorem run_lru_bound (ops : List LRUOp) (L : LRU) (h : L.size ≤ L.capacity) :
    (LRU.run L ops).size ≤ L.capacity ∧
    (LRU.run L ops).capacity = L.capacity := by
  induction ops generalizing L with
  | nil => exact ⟨h, rfl⟩
  | cons op ops ih =>
    cases op with
    | put k v =>
      have h1 := lru_add_bound L k v h
      have h2 := ih (L.Add k v).1 (h1.2.symm ▸ h1.1)
      exact ⟨h1.2 ▸ h2.1, (h2.2.trans h1.2 : _)⟩
    | get k =>
      have h1 := lru_get_bound L k h
      have h2 := ih (L.Get k).2.2 (h1.2.symm ▸ h1.1)
      exact ⟨h1.2 ▸ h2.1, (h2.2.trans h1.2 : _)⟩
    | rem k =>
      have h1 := lru_remove_bound L k h
      have h2 := ih (L.Remove k).1 (h1.2.symm ▸ h1.1)
      exact ⟨h1.2 ▸ h2.1, (h2.2.trans h1.2 : _)⟩

/-! ## Claim C4: size never exceeds capacity -/

/-- C4: for either cache constructed with a positive capacity, the size
after any finite sequence of operations (put/get/remove for the recency
cache; the frequency cache defines no remove, so put/get there) never
exceeds the configured capacity.  Every prefix of a sequence is itself a
sequence, so this bounds the size at every intermediate point as well; a
frequency-cache run that panics is aborted at the panic, and the bound
covers every state reached before it. -/
theorem C4_size_within_capacity (n : Int) (hn : 0 < n)
    (opsL : List LRUOp) (opsF : List LFUOp) :
    (∀ L, NewLRUCache n = Except.ok L → (LRU.run L opsL).size ≤ L.capacity) ∧
    (∀ c c', NewLFUCache n = Except.ok c → c.run opsF = Except.ok c' →
      c'.Size ≤ c.capacity) := by
  constructor
  · intro L hL
    have hn0 : ¬ n ≤ 0 := by omega
    simp only [NewLRUCache, hn0, if_false] at hL
    cases hL
    exact (run_lru_bound opsL _ (by show (0:Nat) ≤ _; omega)).1
  · intro c c' hc hrun
    have hn0 : ¬ n ≤ 0 := by omega
    simp only [NewLFUCache, hn0, if_false] at hc
    cases hc
    have hI : LFUInv { capacity := n.toNat, minFreq := 0, freqNodes := [] } := by
      refine ⟨⟨?_, ?_, ?_, ?_⟩, ?_⟩ <;> simp [keysNodes, LFUCache.Size, sizeNodes]
    obtain ⟨⟨_, hS⟩, hcap⟩ := run_lfu_inv opsF _ c' hI hrun
    show c'.Size ≤ n.toNat
    have hcap2 : c'.capacity = n.toNat := hcap
    rw [← hcap2]
    exact hS

/-- C4 witness: concrete runs on both caches with capacity 2, including an
eviction each. -/
theorem C4_size_within_capacity_witness :
    (LRU.run { capacity := 2, queue := [] }
      [LRUOp.put (GoVal.str "a") (GoVal.str "1"),
       LRUOp.put (GoVal.str "b") (GoVal.str "2"),
       LRUOp.put (GoVal.str "c") (GoVal.str "3"),
       LRUOp.get (GoVal.str "b"),
       LRUOp.rem (GoVal.str "c")]).size ≤ 2 ∧
    LFUCache.Size { capacity := 2, minFreq := 1,
                    freqNodes := [(1, [{ key := GoVal.str "b",
                                         value := GoVal.str "2",
                                         frequency := 1 },
                                       { key := GoVal.str "c",
                                         value := GoVal.str "3",
                                         frequency := 1 }])] } ≤ 2 := by
  have h := C4_size_within_capacity 2 (by decide)
    [LRUOp.put (GoVal.str "a") (GoVal.str "1"),
     LRUOp.put (GoVal.str "b") (GoVal.str "2"),
     LRUOp.put (GoVal.str "c") (GoVal.str "3"),
     LRUOp.get (GoVal.str "b"),
     LRUOp.rem (GoVal.str "c")]
    [LFUOp.put (GoVal.str "a") (GoVal.str "1"),
     LFUOp.put (GoVal.str "b") (GoVal.str "2"),
     LFUOp.put (GoVal.str "c") (GoVal.str "3")]
  refine ⟨h.1 { capacity := 2, queue := [] } rfl, ?_⟩
  exact h.2 { capacity := 2, minFreq := 0, freqNodes := [] }
    { capacity := 2, minFreq := 1,
      freqNodes := [(1, [{ key := GoVal.str "b", value := GoVal.str "2",
                           frequency := 1 },
                         { key := GoVal.str "c", value := GoVal.str "3",
                           frequency := 1 }])] } rfl rfl

/-! ## Claim C3: eviction order -/

/-- C3: eviction on a well-formed frequency structure (ascending bucket
frequencies and items' counts equal to their bucket's frequency — both hold
in every reachable state, see `NodesInv`, `run_lfu_inv`) removes exactly
the head entry `x` of the front bucket: the front bucket is beheaded (and
destroyed when emptied) while all other buckets are untouched, so the
victim is the least-recently-touched entry among those with the lowest
count (every insertion and promotion appends at a bucket's tail), and its
count is strictly lower than the count of every entry in any other
bucket — never the higher one. -/
theorem C3_evict_lowest_count (c : LFUCache) (f : Nat) (x : CacheItem)
    (b' : List CacheItem) (rest : List (Nat × List CacheItem))
    (hq : c.freqNodes = (f, x :: b') :: rest)
    (hPW : List.Pairwise (fun a b => a < b) (c.freqNodes.map Prod.fst))
    (hSY : ∀ p ∈ c.freqNodes, ∀ it ∈ p.2, it.frequency = p.1) :
    c.evict.freqNodes = (if b'.length = 0 then rest else (f, b') :: rest) ∧
    x.frequency = f ∧
    (∀ p ∈ rest, ∀ it2 ∈ p.2, x.frequency < it2.frequency) := by
  have hev : c.evict.freqNodes =
      (if b'.length = 0 then rest else (f, b') :: rest) := by
    simp only [LFUCache.evict, hq]
    by_cases hlen : b'.length = 0
    · rw [if_pos hlen, if_pos hlen]
    · rw [if_neg hlen, if_neg hlen]
  have hxf : x.frequency = f :=
    hSY (f, x :: b') (by rw [hq]; exact List.mem_cons_self _ _) x
      (List.mem_cons_self _ _)
  refine ⟨hev, hxf, ?_⟩
  intro p hp it2 hit2
  have hfr : it2.frequency = p.1 :=
    hSY p (by rw [hq]; exact List.mem_cons_of_mem _ hp) it2 hit2
  have hlt : f < p.1 := by
    rw [hq] at hPW
    simp only [List.map_cons, List.pairwise_cons] at hPW
    exact hPW.1 p.1 (List.mem_map_of_mem Prod.fst hp)
  rw [hxf, hfr]
  exact hlt

/-- C3 witness: a concrete state with a count-1 bucket (two entries) and a
count-3 bucket; eviction beheads the count-1 bucket, and the victim's count
is strictly below the count-3 entry's. -/
theorem C3_evict_lowest_count_witness :
    (LFUCache.evict { capacity := 3, minFreq := 1,
                      freqNodes := [(1, [⟨GoVal.str "a", GoVal.str "1", 1⟩,
                                         ⟨GoVal.str "b", GoVal.str "2", 1⟩]),
                                    (3, [⟨GoVal.str "c", GoVal.str "3", 3⟩])] }).freqNodes =
      [(1, [⟨GoVal.str "b", GoVal.str "2", 1⟩]),
       (3, [⟨GoVal.str "c", GoVal.str "3", 3⟩])] ∧
    (⟨GoVal.str "a", GoVal.str "1", 1⟩ : CacheItem).frequency <
      (⟨GoVal.str "c", GoVal.str "3", 3⟩ : CacheItem).frequency := by
  have h := C3_evict_lowest_count
    { capacity := 3, minFreq := 1,
      freqNodes := [(1, [⟨GoVal.str "a", GoVal.str "1", 1⟩,
                         ⟨GoVal.str "b", GoVal.str "2", 1⟩]),
                    (3, [⟨GoVal.str "c", GoVal.str "3", 3⟩])] }
    1 ⟨GoVal.str "a", GoVal.str "1", 1⟩ [⟨GoVal.str "b", GoVal.str "2", 1⟩]
    [(3, [⟨GoVal.str "c", GoVal.str "3", 3⟩])] rfl (by decide) (by decide)
  refine ⟨?_, ?_⟩
  · rw [h.1]
    rfl
  · exact h.2.2 (3, [⟨GoVal.str "c", GoVal.str "3", 3⟩]) (by simp)
      ⟨GoVal.str "c", GoVal.str "3", 3⟩ (by simp)
